import Mathlib

/-!
Verification of the sqlalchemy-searchable repository
(`sqlalchemy_searchable/__init__.py`), a shallow embedding in Lean 4.

Strings are modelled as `List Char` so that every definition is structurally
recursive and kernel-computable.  Python exceptions are modelled with
`Except`.  The SQLAlchemy query object is modelled by the `Query` structure:
a list of attached filter-criterion strings, an association list of named
bound parameters, and the mapped entity from which a tablename may be
inferred (`query._entities[0].entity_zero.class_`).
-/

/-- Strings of the embedding: lists of characters. -/
abbrev Str := List Char

deriving instance DecidableEq for Except

/-- The nine reserved full-text-query characters of the regular-expression
character class `[():|&!*@#\s]` in `safe_search_terms`. -/
def reserved_chars : Str := ['(', ')', ':', '|', '&', '!', '*', '@', '#']

/-- The whitespace characters matched by the regular-expression class `\s`
(the ASCII range; the module never distinguishes further). -/
def space_chars : Str := [' ', '\t', '\n', '\x0b', '\x0c', '\r']

/-- Membership in the character class `[():|&!*@#\s]`: the characters the
source comment calls illegal. -/
def is_illegal (c : Char) : Bool :=
  reserved_chars.contains c || space_chars.contains c

/-- Membership in `\s`, the class stripped by Python `str.strip()`. -/
def is_py_space (c : Char) : Bool := space_chars.contains c

/-- Embedding of `re.sub(r'[():|&!*@#\s]+', ' ', query)`: every maximal run
of illegal characters is replaced by a single space.  The recursion looks
one character ahead and emits the space at the end of each run, which keeps
it structural (kernel-computable) and equivalent to the regex substitution. -/
def sub_illegal_runs : Str → Str
  | [] => []
  | [c] => if is_illegal c then [' '] else [c]
  | c :: d :: rest =>
    if is_illegal c then
      if is_illegal d then sub_illegal_runs (d :: rest)
      else ' ' :: sub_illegal_runs (d :: rest)
    else c :: sub_illegal_runs (d :: rest)

/-- Embedding of Python `str.strip()`: drop whitespace from both ends. -/
def py_strip (l : Str) : Str :=
  ((l.dropWhile is_py_space).reverse.dropWhile is_py_space).reverse

/-- Embedding of Python `str.split(' ')` (explicit single-space separator:
adjacent separators yield empty pieces, and the empty string yields one
empty piece). -/
def split_on_space : Str → List Str
  | [] => [[]]
  | c :: cs =>
    if c = ' ' then [] :: split_on_space cs
    else
      match split_on_space cs with
      | [] => [[c]]
      | t :: ts => (c :: t) :: ts

/-- The default `wildcard` argument of `safe_search_terms`. -/
def wildcard : Str := [':', '*']

/-- Embedding of `safe_search_terms(query)` (with the default wildcard, the
only way the module calls it): substitute illegal-character runs by single
spaces, strip, return `[]` if the result is empty, else split on single
spaces and append the wildcard to every term. -/
def safe_search_terms (query : Str) : List Str :=
  let q := py_strip (sub_illegal_runs query)
  if q = [] then []
  else (split_on_space q).map (fun a => a ++ wildcard)

/-- The tokenization of `safe_search_terms` before the wildcard is appended
(the `terms = query.split(' ')` value of the source, or `[]` on the early
return). -/
def sanitize_tokens (query : Str) : List Str :=
  let q := py_strip (sub_illegal_runs query)
  if q = [] then []
  else split_on_space q

/-- Embedding of `quote_identifier`: wrap the identifier in double quotes. -/
def quote_identifier (identifier : Str) : Str :=
  ['"'] ++ identifier ++ ['"']

/-- The mapped entity class reachable from a query
(`query._entities[0].entity_zero.class_`), as far as tablename inference is
concerned. `search_options_tablename` is `__search_options__['tablename']`
when that attribute lookup succeeds (`none` models the `AttributeError` or
`KeyError` that routes to `_inspect_searchable_tablename`);
`inspect_tablename` is the outcome of `_inspect_searchable_tablename()`
(`none` models the `AttributeError` raised when the recursive walk reaches a
class hierarchy that never directly inherits `Searchable`, which propagates
out of `search_filter` uncaught). -/
structure Entity where
  search_options_tablename : Option Str
  inspect_tablename : Option Str
deriving DecidableEq, Repr

/-- The modelled SQLAlchemy query object: attached filter criteria, bound
named parameters, and the entity used for tablename inference (`none`
models a query with no entities, where `query._entities[0]` raises). -/
structure Query where
  filters : List Str
  params : List (Str × Str)
  entity : Option Entity
deriving DecidableEq, Repr

/-- Truthiness of an optional string argument, as tested by the Python
`if not tablename` and `if not language` guards: absent or empty is falsy. -/
def opt_falsy : Option Str → Bool
  | none => true
  | some s => s.isEmpty

/-- The tablename inference performed by `search_filter` when no tablename
is supplied: read `__search_options__['tablename']`, falling back to
`_inspect_searchable_tablename()` on `AttributeError` or `KeyError`.
`none` means a Python exception propagates. -/
def infer_tablename (query : Query) : Option Str :=
  match query.entity with
  | none => none
  | some e =>
    match e.search_options_tablename with
    | some tn => some tn
    | none => e.inspect_tablename

/-- Embedding of the module-level `search_filter(query, term, tablename,
language)`.  Note that the `term` argument is accepted but never used in the
predicate string.  The result is `Except` because tablename inference can
raise. -/
def search_filter (query : Query) (term : Str)
    (tablename language : Option Str) : Except Unit Str :=
  match (if opt_falsy tablename then infer_tablename query else tablename) with
  | none => Except.error ()
  | some tn =>
    if opt_falsy language then
      Except.ok (quote_identifier tn ++ ".search_vector @@ to_tsquery(:term)".data)
    else
      Except.ok (quote_identifier tn ++ ".search_vector @@ to_tsquery(".data
        ++ ['\''] ++ language.getD [] ++ ['\''] ++ ", :term)".data)

/-- Embedding of `SearchQueryMixin.search_filter`, which delegates to the
module-level function with `self` as the query. -/
def SearchQueryMixin_search_filter (self : Query) (term : Str)
    (tablename language : Option Str) : Except Unit Str :=
  search_filter self term tablename language

/-- Embedding of `query.filter(criterion)`: a query with the criterion
appended to the attached filters. -/
def Query.filter (self : Query) (criterion : Str) : Query :=
  { self with filters := self.filters ++ [criterion] }

/-- Update an association list of bound parameters, replacing the binding of
name `k` or appending a fresh one. -/
def set_param (ps : List (Str × Str)) (k v : Str) : List (Str × Str) :=
  match ps with
  | [] => [(k, v)]
  | (k', v') :: rest =>
    if k' = k then (k, v) :: rest else (k', v') :: set_param rest k v

/-- Embedding of `query.params(term=value)`: bind the named parameter. -/
def Query.params_bind (self : Query) (k v : Str) : Query :=
  { self with params := set_param self.params k v }

/-- Embedding of `SearchQueryMixin.search(self, search_query, tablename,
language)`: early-return `self` on a falsy search string or an empty term
list, otherwise attach the predicate built by `self.search_filter` and bind
the parameter `term` to the terms joined with " & ". -/
def SearchQueryMixin_search (self : Query) (search_query : Str)
    (tablename language : Option Str) : Except Unit Query :=
  if search_query = [] then Except.ok self
  else
    let terms := safe_search_terms search_query
    if terms = [] then Except.ok self
    else
      match SearchQueryMixin_search_filter self search_query tablename language with
      | Except.error e => Except.error e
      | Except.ok criterion =>
        Except.ok ((self.filter criterion).params_bind "term".data
          (" & ".data.intercalate terms))

/-- Embedding of the module-level `search(query, search_query, tablename,
language)`.  The `hasattr(query, 'search_filter')` test is true for every
modelled query (every `Query` carries the mixin interface, which is also
the premise of the refinement claim); both branches of the source delegate
to the same predicate construction. -/
def search (query : Query) (search_query : Str)
    (tablename language : Option Str) : Except Unit Query :=
  if search_query = [] then Except.ok query
  else
    let terms := safe_search_terms search_query
    if terms = [] then Except.ok query
    else
      match SearchQueryMixin_search_filter query search_query tablename language with
      | Except.error e => Except.error e
      | Except.ok criterion =>
        Except.ok ((query.filter criterion).params_bind "term".data
          (" & ".data.intercalate terms))

/-- A data model class participating in `Searchable`, as seen by
`define_search_vector`: its name, tablename, declared searchable columns,
the schema-naming attributes, and whether `Searchable` is among its direct
bases (`Searchable in cls.__bases__`). -/
structure SearchableModel where
  name : Str
  tablename : Str
  searchable_columns : List Str
  search_vector_name : Str
  search_catalog : Str
  search_index_name : Str
  search_trigger_name : Str
  directly_inherits_searchable : Bool
deriving DecidableEq, Repr

/-- Embedding of `Searchable.__make_ddls`: the four DDL statements attached
for a searchable class (template whitespace normalised to single spaces). -/
def make_ddls (cls : SearchableModel) : List Str :=
  [ "ALTER TABLE ".data ++ cls.tablename ++ " ADD COLUMN ".data
      ++ cls.search_vector_name ++ " tsvector".data
  , "CREATE INDEX ".data ++ cls.search_index_name ++ " ON ".data
      ++ cls.tablename ++ " USING gin(".data ++ cls.search_vector_name ++ ")".data
  , "CREATE TRIGGER ".data ++ cls.search_trigger_name
      ++ " BEFORE UPDATE OR INSERT ON ".data ++ cls.tablename
      ++ " FOR EACH ROW EXECUTE PROCEDURE tsvector_update_trigger(".data
      ++ ", ".data.intercalate
          ([cls.search_vector_name, ['\''] ++ cls.search_catalog ++ ['\'']]
            ++ cls.searchable_columns)
      ++ ")".data
  , "ALTER TABLE ".data ++ cls.tablename ++ " ADD NEW FULLTEXT(".data
      ++ ", ".data.intercalate cls.searchable_columns ++ ")".data ]

/-- Embedding of `Searchable.define_search_vector`: a no-op for classes that
do not directly inherit `Searchable`; an exception (with the source's
message) when no searchable columns are declared; otherwise the DDL
statements are registered.  `Except.error` models the raised `Exception`. -/
def define_search_vector (cls : SearchableModel) : Except Str (List Str) :=
  if cls.directly_inherits_searchable = false then Except.ok []
  else if cls.searchable_columns = [] then
    Except.error ("No searchable columns defined for model ".data ++ cls.name)
  else Except.ok (make_ddls cls)

/-! ## Auxiliary lemmas about the sanitizer -/

/-- The absence-of-adjacent-spaces predicate: whitespace runs are collapsed. -/
def no_adj_spaces (l : Str) : Prop :=
  List.Chain' (fun a b => ¬(a = ' ' ∧ b = ' ')) l

instance no_adj_spaces_decidable (l : Str) : Decidable (no_adj_spaces l) := by
  unfold no_adj_spaces; infer_instance

theorem not_illegal_ne_space {c : Char} (h : is_illegal c = false) : c ≠ ' ' := by
  intro hc
  subst hc
  exact absurd h (by decide)

theorem illegal_of_py_space {c : Char} (h : is_py_space c = true) :
    is_illegal c = true := by
  unfold is_illegal
  unfold is_py_space at h
  rw [h]
  exact Bool.or_true _

theorem sub_cons_not_illegal (d : Char) (rest : Str) (h : is_illegal d = false) :
    ∃ t, sub_illegal_runs (d :: rest) = d :: t := by
  cases rest with
  | nil => exact ⟨[], by simp [sub_illegal_runs, h]⟩
  | cons r rs => exact ⟨sub_illegal_runs (r :: rs), by simp [sub_illegal_runs, h]⟩

theorem sub_runs_mem (l : Str) :
    ∀ c ∈ sub_illegal_runs l, c = ' ' ∨ (is_illegal c = false ∧ c ∈ l) := by
  induction l with
  | nil => simp [sub_illegal_runs]
  | cons c cs ih =>
    cases cs with
    | nil =>
      intro x hx
      by_cases hc : is_illegal c = true
      · simp [sub_illegal_runs, hc] at hx
        exact Or.inl hx
      · simp [sub_illegal_runs, Bool.of_not_eq_true hc] at hx
        subst hx
        exact Or.inr ⟨Bool.of_not_eq_true hc, List.mem_singleton_self _⟩
    | cons d rest =>
      intro x hx
      by_cases hc : is_illegal c = true
      · by_cases hd : is_illegal d = true
        · rw [show sub_illegal_runs (c :: d :: rest) = sub_illegal_runs (d :: rest)
            from by simp [sub_illegal_runs, hc, hd]] at hx
          rcases ih x hx with h1 | ⟨h1, h2⟩
          · exact Or.inl h1
          · exact Or.inr ⟨h1, List.mem_cons_of_mem c h2⟩
        · rw [show sub_illegal_runs (c :: d :: rest)
              = ' ' :: sub_illegal_runs (d :: rest)
            from by simp [sub_illegal_runs, hc, hd]] at hx
          rcases List.mem_cons.mp hx with h1 | h1
          · exact Or.inl h1
          · rcases ih x h1 with h2 | ⟨h2, h3⟩
            · exact Or.inl h2
            · exact Or.inr ⟨h2, List.mem_cons_of_mem c h3⟩
      · rw [show sub_illegal_runs (c :: d :: rest)
            = c :: sub_illegal_runs (d :: rest)
          from by simp [sub_illegal_runs, Bool.of_not_eq_true hc]] at hx
        rcases List.mem_cons.mp hx with h1 | h1
        · subst h1
          exact Or.inr ⟨Bool.of_not_eq_true hc, List.mem_cons_self _ _⟩
        · rcases ih x h1 with h2 | ⟨h2, h3⟩
          · exact Or.inl h2
          · exact Or.inr ⟨h2, List.mem_cons_of_mem c h3⟩

theorem sub_nas (l : Str) : no_adj_spaces (sub_illegal_runs l) := by
  induction l with
  | nil => simp [sub_illegal_runs, no_adj_spaces]
  | cons c cs ih =>
    cases cs with
    | nil =>
      by_cases hc : is_illegal c = true <;>
        simp [sub_illegal_runs, hc, no_adj_spaces]
    | cons d rest =>
      by_cases hc : is_illegal c = true
      · by_cases hd : is_illegal d = true
        · rw [show sub_illegal_runs (c :: d :: rest) = sub_illegal_runs (d :: rest)
            from by simp [sub_illegal_runs, hc, hd]]
          exact ih
        · rw [show sub_illegal_runs (c :: d :: rest)
              = ' ' :: sub_illegal_runs (d :: rest)
            from by simp [sub_illegal_runs, hc, hd]]
          refine List.chain'_cons'.mpr ⟨?_, ih⟩
          intro y hy
          obtain ⟨t, ht⟩ := sub_cons_not_illegal d rest (Bool.of_not_eq_true hd)
          rw [ht] at hy
          simp at hy
          subst hy
          exact fun hpair => not_illegal_ne_space (Bool.of_not_eq_true hd) hpair.2
      · rw [show sub_illegal_runs (c :: d :: rest)
            = c :: sub_illegal_runs (d :: rest)
          from by simp [sub_illegal_runs, Bool.of_not_eq_true hc]]
        refine List.chain'_cons'.mpr ⟨?_, ih⟩
        intro y _
        exact fun hpair => not_illegal_ne_space (Bool.of_not_eq_true hc) hpair.1

theorem sub_all_illegal (l : Str) (h : ∀ c ∈ l, is_illegal c = true) :
    sub_illegal_runs l = [] ∨ sub_illegal_runs l = [' '] := by
  induction l with
  | nil => exact Or.inl rfl
  | cons c cs ih =>
    have hc : is_illegal c = true := h c (List.mem_cons_self c cs)
    cases cs with
    | nil => exact Or.inr (by simp [sub_illegal_runs, hc])
    | cons d rest =>
      have hd : is_illegal d = true := h d (List.mem_cons_of_mem c (List.mem_cons_self d rest))
      rw [show sub_illegal_runs (c :: d :: rest) = sub_illegal_runs (d :: rest)
        from by simp [sub_illegal_runs, hc, hd]]
      exact ih (fun x hx => h x (List.mem_cons_of_mem c hx))

theorem head?_dropWhile_not (p : Char → Bool) :
    ∀ (l : Str) (x : Char), (l.dropWhile p).head? = some x → p x = false := by
  intro l
  induction l with
  | nil => simp
  | cons c cs ih =>
    intro x hx
    by_cases hc : p c = true
    · rw [List.dropWhile_cons, if_pos hc] at hx
      exact ih x hx
    · rw [List.dropWhile_cons, if_neg hc] at hx
      simp at hx
      subst hx
      exact Bool.of_not_eq_true hc

theorem mem_py_strip {l : Str} {c : Char} (h : c ∈ py_strip l) : c ∈ l := by
  unfold py_strip at h
  rw [List.mem_reverse] at h
  have h2 : c ∈ (l.dropWhile is_py_space).reverse :=
    (List.dropWhile_sublist is_py_space).mem h
  rw [List.mem_reverse] at h2
  exact (List.dropWhile_sublist is_py_space).mem h2

theorem py_strip_head {l : Str} {x : Char} (h : (py_strip l).head? = some x) :
    is_py_space x = false := by
  unfold py_strip at h
  rw [List.head?_reverse] at h
  obtain ⟨t, ht⟩ := List.dropWhile_suffix (l := (l.dropWhile is_py_space).reverse)
    (p := is_py_space)
  have h2 : ((l.dropWhile is_py_space).reverse).getLast? = some x := by
    rw [← ht, List.getLast?_append, h]
    rfl
  rw [List.getLast?_reverse] at h2
  exact head?_dropWhile_not is_py_space l x h2

theorem py_strip_getLast {l : Str} {x : Char}
    (h : (py_strip l).getLast? = some x) : is_py_space x = false := by
  unfold py_strip at h
  rw [List.getLast?_reverse] at h
  exact head?_dropWhile_not is_py_space _ x h

theorem nas_swap {a b : Char} (h : ¬(a = ' ' ∧ b = ' ')) : ¬(b = ' ' ∧ a = ' ') :=
  fun hp => h ⟨hp.2, hp.1⟩

theorem nas_reverse {l : Str} (h : no_adj_spaces l) : no_adj_spaces l.reverse := by
  unfold no_adj_spaces at *
  rw [List.chain'_reverse]
  exact h.imp (fun a b hab => nas_swap hab)

theorem nas_py_strip {l : Str} (h : no_adj_spaces l) : no_adj_spaces (py_strip l) := by
  unfold py_strip
  apply nas_reverse
  refine List.Chain'.suffix ?_ (List.dropWhile_suffix is_py_space)
  apply nas_reverse
  exact List.Chain'.suffix h (List.dropWhile_suffix is_py_space)

theorem split_on_space_ne_nil (l : Str) : split_on_space l ≠ [] := by
  cases l with
  | nil => simp [split_on_space]
  | cons c cs =>
    by_cases hc : c = ' '
    · simp [split_on_space, hc]
    · cases h : split_on_space cs <;> simp [split_on_space, hc, h]

theorem mem_split_mem (l : Str) :
    ∀ t ∈ split_on_space l, ∀ c ∈ t, c ∈ l ∧ c ≠ ' ' := by
  induction l with
  | nil => simp [split_on_space]
  | cons c cs ih =>
    intro t ht x hx
    by_cases hc : c = ' '
    · rw [show split_on_space (c :: cs) = [] :: split_on_space cs
        from by simp [split_on_space, hc]] at ht
      rcases List.mem_cons.mp ht with h1 | h1
      · subst h1
        simp at hx
      · obtain ⟨hm, hs⟩ := ih t h1 x hx
        exact ⟨List.mem_cons_of_mem c hm, hs⟩
    · cases hsp : split_on_space cs with
      | nil => exact absurd hsp (split_on_space_ne_nil cs)
      | cons t0 ts =>
        rw [show split_on_space (c :: cs) = (c :: t0) :: ts
          from by simp [split_on_space, hc, hsp]] at ht
        rcases List.mem_cons.mp ht with h1 | h1
        · subst h1
          rcases List.mem_cons.mp hx with h2 | h2
          · subst h2
            exact ⟨List.mem_cons_self _ _, hc⟩
          · obtain ⟨hm, hs⟩ := ih t0 (hsp ▸ List.mem_cons_self t0 ts) x h2
            exact ⟨List.mem_cons_of_mem c hm, hs⟩
        · obtain ⟨hm, hs⟩ := ih t (hsp ▸ List.mem_cons_of_mem t0 h1) x hx
          exact ⟨List.mem_cons_of_mem c hm, hs⟩

theorem split_cons_space (cs : Str) :
    split_on_space (' ' :: cs) = [] :: split_on_space cs := by
  simp [split_on_space]

theorem split_cons_of_ne (c : Char) (cs : Str) (hc : c ≠ ' ')
    {t0 : Str} {ts : List Str} (hsp : split_on_space cs = t0 :: ts) :
    split_on_space (c :: cs) = (c :: t0) :: ts := by
  simp [split_on_space, hc, hsp]

theorem split_tokens_ne_nil_aux :
    ∀ (n : Nat) (l : Str), l.length ≤ n → l ≠ [] →
      l.head? ≠ some ' ' → l.getLast? ≠ some ' ' → no_adj_spaces l →
      ∀ t ∈ split_on_space l, t ≠ [] := by
  intro n
  induction n with
  | zero =>
    intro l hlen hne
    cases l with
    | nil => exact absurd rfl hne
    | cons c cs => simp at hlen
  | succ n ih =>
    intro l hlen hne hhead hlast hnas t ht
    cases l with
    | nil => exact absurd rfl hne
    | cons c cs =>
      have hc : c ≠ ' ' := by
        intro h
        exact hhead (by rw [h]; rfl)
      cases cs with
      | nil =>
        rw [show split_on_space [c] = [[c]]
          from by simp [split_on_space, hc]] at ht
        simp at ht
        subst ht
        simp
      | cons d rest =>
        by_cases hd : d = ' '
        · subst hd
          have hrest_ne : rest ≠ [] := by
            intro h
            subst h
            exact hlast (by rfl)
          have hnas' : no_adj_spaces (' ' :: rest) := List.Chain'.tail hnas
          have hrhead : rest.head? ≠ some ' ' := by
            intro h
            rcases List.chain'_cons'.mp hnas' with ⟨h1, _⟩
            exact h1 ' ' h ⟨rfl, rfl⟩
          have hrlast : rest.getLast? ≠ some ' ' := by
            rw [List.getLast?_cons_cons] at hlast
            cases rest with
            | nil => exact absurd rfl hrest_ne
            | cons r rs =>
              rw [List.getLast?_cons_cons] at hlast
              exact hlast
          cases hsp : split_on_space rest with
          | nil => exact absurd hsp (split_on_space_ne_nil rest)
          | cons t0 ts =>
            rw [split_cons_of_ne c (' ' :: rest) hc
              (by rw [split_cons_space, hsp])] at ht
            rcases List.mem_cons.mp ht with h1 | h1
            · subst h1
              simp
            · refine ih rest ?_ hrest_ne hrhead hrlast (List.Chain'.tail hnas') t ?_
              · have : rest.length + 2 ≤ n + 1 := by simpa using hlen
                omega
              · rw [hsp]
                exact h1
        · have hdlast : (d :: rest).getLast? ≠ some ' ' := by
            rw [List.getLast?_cons_cons] at hlast
            exact hlast
          have hdhead : (d :: rest).head? ≠ some ' ' := by
            intro h
            simp at h
            exact hd h
          cases hsp : split_on_space (d :: rest) with
          | nil => exact absurd hsp (split_on_space_ne_nil _)
          | cons t0 ts =>
            rw [split_cons_of_ne c (d :: rest) hc hsp] at ht
            rcases List.mem_cons.mp ht with h1 | h1
            · subst h1
              simp
            · refine ih (d :: rest) ?_ (by simp) hdhead hdlast
                (List.Chain'.tail hnas) t ?_
              · have : rest.length + 2 ≤ n + 1 := by simpa using hlen
                simp
                omega
              · rw [hsp]
                exact List.mem_cons_of_mem t0 h1

theorem split_tokens_ne_nil (l : Str) (hne : l ≠ [])
    (hhead : l.head? ≠ some ' ') (hlast : l.getLast? ≠ some ' ')
    (hnas : no_adj_spaces l) : ∀ t ∈ split_on_space l, t ≠ [] :=
  split_tokens_ne_nil_aux l.length l (Nat.le_refl _) hne hhead hlast hnas

theorem sanitize_tokens_eq (q : Str) :
    sanitize_tokens q
      = if py_strip (sub_illegal_runs q) = [] then []
        else split_on_space (py_strip (sub_illegal_runs q)) := rfl

theorem safe_search_terms_eq (q : Str) :
    safe_search_terms q
      = if py_strip (sub_illegal_runs q) = [] then []
        else (split_on_space (py_strip (sub_illegal_runs q))).map
          (fun a => a ++ wildcard) := rfl

theorem safe_search_terms_eq_map (q : Str) :
    safe_search_terms q = (sanitize_tokens q).map (fun a => a ++ wildcard) := by
  rw [safe_search_terms_eq, sanitize_tokens_eq]
  by_cases h : py_strip (sub_illegal_runs q) = [] <;> simp [h]

theorem py_strip_head_ne_space (q : Str) :
    (py_strip (sub_illegal_runs q)).head? ≠ some ' ' := by
  intro h
  exact absurd (py_strip_head h) (by decide)

theorem py_strip_getLast_ne_space (q : Str) :
    (py_strip (sub_illegal_runs q)).getLast? ≠ some ' ' := by
  intro h
  exact absurd (py_strip_getLast h) (by decide)

theorem sanitize_tokens_spec (q : Str) :
    ∀ w ∈ sanitize_tokens q, w ≠ [] ∧ ∀ c ∈ w, is_illegal c = false := by
  intro w hw
  rw [sanitize_tokens_eq] at hw
  by_cases hs : py_strip (sub_illegal_runs q) = []
  · rw [if_pos hs] at hw
    simp at hw
  · rw [if_neg hs] at hw
    refine ⟨split_tokens_ne_nil _ hs (py_strip_head_ne_space q)
      (py_strip_getLast_ne_space q) (nas_py_strip (sub_nas _)) w hw, ?_⟩
    intro c hc
    obtain ⟨hm, hsp⟩ := mem_split_mem _ w hw c hc
    rcases sub_runs_mem q c (mem_py_strip hm) with h1 | ⟨h1, _⟩
    · exact absurd h1 hsp
    · exact h1

theorem terms_no_space (q : Str) :
    ∀ t ∈ safe_search_terms q, ∀ c ∈ t, c ≠ ' ' := by
  intro t ht c hc
  rw [safe_search_terms_eq_map] at ht
  obtain ⟨w, hw, hmap⟩ := List.mem_map.mp ht
  subst hmap
  rcases List.mem_append.mp hc with h1 | h1
  · exact not_illegal_ne_space ((sanitize_tokens_spec q w hw).2 c h1)
  · intro he
    subst he
    revert h1
    decide

/-! ## The round-trip split used by the idempotence claim -/

/-- Splitting a string on the three-character separator " & " with the usual
leftmost, non-overlapping semantics of Python `str.split(" & ")` (the
operation the spec applies to the joined term string). -/
def split_on_amp : Str → List Str
  | [] => [[]]
  | [c] => [[c]]
  | [c, d] => [[c, d]]
  | c :: d :: e :: rest =>
    if c = ' ' ∧ d = '&' ∧ e = ' ' then [] :: split_on_amp rest
    else
      match split_on_amp (d :: e :: rest) with
      | [] => [[c]]
      | t :: ts => (c :: t) :: ts

/-- Stripping the suffix marker ":*" from a piece, when present. -/
def strip_colon_star (l : Str) : Str :=
  if wildcard <:+ l then l.take (l.length - 2) else l

theorem split_amp_sep (x : Str) :
    split_on_amp (' ' :: '&' :: ' ' :: x) = [] :: split_on_amp x := by
  cases x with
  | nil => rfl
  | cons a as => simp [split_on_amp]

theorem split_amp_cons_ne (c : Char) (cs : Str) (hc : c ≠ ' ')
    {t0 : Str} {ts : List Str} (hsp : split_on_amp cs = t0 :: ts) :
    split_on_amp (c :: cs) = (c :: t0) :: ts := by
  cases cs with
  | nil =>
    simp [split_on_amp] at hsp
    obtain ⟨h1, h2⟩ := hsp
    subst h1
    subst h2
    rfl
  | cons d ds =>
    cases ds with
    | nil =>
      simp [split_on_amp] at hsp
      obtain ⟨h1, h2⟩ := hsp
      subst h1
      subst h2
      rfl
    | cons e rest =>
      rw [show split_on_amp (c :: d :: e :: rest)
          = if c = ' ' ∧ d = '&' ∧ e = ' ' then [] :: split_on_amp rest
            else
              match split_on_amp (d :: e :: rest) with
              | [] => [[c]]
              | t :: ts => (c :: t) :: ts
        from rfl]
      rw [if_neg (fun hp => hc hp.1), hsp]

theorem split_amp_no_space (t : Str) (h : ∀ c ∈ t, c ≠ ' ') :
    split_on_amp t = [t] := by
  induction t with
  | nil => rfl
  | cons c cs ih =>
    exact split_amp_cons_ne c cs (h c (List.mem_cons_self c cs))
      (ih (fun x hx => h x (List.mem_cons_of_mem c hx)))

theorem split_amp_append (t x : Str) (h : ∀ c ∈ t, c ≠ ' ') :
    split_on_amp (t ++ ' ' :: '&' :: ' ' :: x) = t :: split_on_amp x := by
  induction t with
  | nil => simpa using split_amp_sep x
  | cons c cs ih =>
    rw [List.cons_append]
    exact split_amp_cons_ne c _ (h c (List.mem_cons_self c cs))
      (ih (fun y hy => h y (List.mem_cons_of_mem c hy)))

theorem split_amp_intercalate (terms : List Str) (hne : terms ≠ [])
    (h : ∀ t ∈ terms, ∀ c ∈ t, c ≠ ' ') :
    split_on_amp (" & ".data.intercalate terms) = terms := by
  induction terms with
  | nil => exact absurd rfl hne
  | cons t rest ih =>
    cases rest with
    | nil =>
      rw [show " & ".data.intercalate [t] = t from by simp [List.intercalate]]
      exact split_amp_no_space t (h t (List.mem_cons_self t []))
    | cons r rs =>
      rw [show " & ".data.intercalate (t :: r :: rs)
          = t ++ ' ' :: '&' :: ' ' :: (" & ".data.intercalate (r :: rs))
        from by simp [List.intercalate, List.intersperse]]
      rw [split_amp_append t _ (h t (List.mem_cons_self t _))]
      rw [ih (by simp) (fun u hu => h u (List.mem_cons_of_mem t hu))]

theorem strip_colon_star_append (w : Str) :
    strip_colon_star (w ++ wildcard) = w := by
  unfold strip_colon_star
  rw [if_pos ⟨w, rfl⟩]
  rw [show (w ++ wildcard).length - 2 = w.length from by simp [wildcard]]
  exact List.take_left w wildcard

/-! ## Helpers about `search` -/

theorem safe_search_terms_nil : safe_search_terms [] = [] := rfl

theorem search_eq (ctx : Query) (q : Str) (tn lang : Option Str) :
    search ctx q tn lang
      = if q = [] then Except.ok ctx
        else if safe_search_terms q = [] then Except.ok ctx
        else
          match SearchQueryMixin_search_filter ctx q tn lang with
          | Except.error e => Except.error e
          | Except.ok criterion =>
            Except.ok ((ctx.filter criterion).params_bind "term".data
              (" & ".data.intercalate (safe_search_terms q))) := rfl

theorem mixin_search_eq (ctx : Query) (q : Str) (tn lang : Option Str) :
    SearchQueryMixin_search ctx q tn lang
      = if q = [] then Except.ok ctx
        else if safe_search_terms q = [] then Except.ok ctx
        else
          match SearchQueryMixin_search_filter ctx q tn lang with
          | Except.error e => Except.error e
          | Except.ok criterion =>
            Except.ok ((ctx.filter criterion).params_bind "term".data
              (" & ".data.intercalate (safe_search_terms q))) := rfl

theorem search_empty_terms (ctx : Query) (q : Str) (tn lang : Option Str)
    (h : safe_search_terms q = []) : search ctx q tn lang = Except.ok ctx := by
  rw [search_eq]
  by_cases hq : q = []
  · rw [if_pos hq]
  · rw [if_neg hq, if_pos h]

theorem mixin_search_empty_terms (ctx : Query) (q : Str) (tn lang : Option Str)
    (h : safe_search_terms q = []) :
    SearchQueryMixin_search ctx q tn lang = Except.ok ctx := by
  rw [mixin_search_eq]
  by_cases hq : q = []
  · rw [if_pos hq]
  · rw [if_neg hq, if_pos h]

theorem search_ok_shape (ctx : Query) (q : Str) (tn lang : Option Str) (r : Query)
    (hterms : safe_search_terms q ≠ [])
    (h : search ctx q tn lang = Except.ok r) :
    ∃ f, SearchQueryMixin_search_filter ctx q tn lang = Except.ok f ∧
      r = (ctx.filter f).params_bind "term".data
        (" & ".data.intercalate (safe_search_terms q)) := by
  have hq : q ≠ [] := fun he => hterms (he ▸ safe_search_terms_nil)
  rw [search_eq, if_neg hq, if_neg hterms] at h
  cases hsf : SearchQueryMixin_search_filter ctx q tn lang with
  | error e =>
    rw [hsf] at h
    exact absurd h (by simp)
  | ok f =>
    rw [hsf] at h
    simp only [Except.ok.injEq] at h
    exact ⟨f, rfl, h.symm⟩

/-! ## The claims -/

/-- C1: for every input string, `safe_search_terms` removes every character
of the reserved set, collapses whitespace runs to single spaces, trims
leading and trailing space, returns the empty sequence when the cleaned
string is empty, and in particular returns the empty sequence whenever the
input consists only of reserved characters and whitespace. -/
theorem C1_sanitize_spec (q : Str) :
    (∀ c ∈ py_strip (sub_illegal_runs q), reserved_chars.contains c = false) ∧
    (∀ c ∈ py_strip (sub_illegal_runs q), is_py_space c = true → c = ' ') ∧
    no_adj_spaces (py_strip (sub_illegal_runs q)) ∧
    (py_strip (sub_illegal_runs q)).head? ≠ some ' ' ∧
    (py_strip (sub_illegal_runs q)).getLast? ≠ some ' ' ∧
    (py_strip (sub_illegal_runs q) = [] → safe_search_terms q = []) ∧
    ((∀ c ∈ q, is_illegal c = true) → safe_search_terms q = []) := by
  refine ⟨?_, ?_, nas_py_strip (sub_nas q), py_strip_head_ne_space q,
    py_strip_getLast_ne_space q, ?_, ?_⟩
  · intro c hc
    rcases sub_runs_mem q c (mem_py_strip hc) with h1 | ⟨h1, _⟩
    · subst h1
      decide
    · unfold is_illegal at h1
      exact (Bool.or_eq_false_iff.mp h1).1
  · intro c hc hsp
    rcases sub_runs_mem q c (mem_py_strip hc) with h1 | ⟨h1, _⟩
    · exact h1
    · exact absurd (illegal_of_py_space hsp) (by simp [h1])
  · intro h
    rw [safe_search_terms_eq, if_pos h]
  · intro h
    rcases sub_all_illegal q h with h1 | h1 <;> rw [safe_search_terms_eq, h1] <;> decide

/-- Witness for C1 at an input made only of reserved characters and
whitespace, discharging both conditional conjuncts. -/
theorem C1_sanitize_spec_witness : safe_search_terms "(#@ !".data = [] :=
  (C1_sanitize_spec "(#@ !".data).2.2.2.2.2.2 (by decide)

/-- C2: `search_filter` with tablename "users" produces exactly the
documented predicate strings, without and with the "english" configuration,
and the identifier is quoted by wrapping it in double quotes.  The query
and the raw term are arbitrary. -/
theorem C2_build_filter_exact :
    (∀ (q : Query) (term : Str),
        search_filter q term (some "users".data) none
          = Except.ok "\"users\".search_vector @@ to_tsquery(:term)".data) ∧
    (∀ (q : Query) (term : Str),
        search_filter q term (some "users".data) (some "english".data)
          = Except.ok ("\"users\".search_vector @@ to_tsquery(".data
              ++ ['\''] ++ "english".data ++ ['\''] ++ ", :term)".data)) ∧
    quote_identifier "users".data = "\"users\"".data :=
  ⟨fun _ _ => rfl, fun _ _ => rfl, rfl⟩

/-- C3: a falsy raw query, or one sanitizing to no terms, makes both the
module-level `search` and the mixin method return the query context itself,
with no filter attached and no parameter bound. -/
theorem C3_empty_input_identity :
    ∀ (ctx : Query) (q : Str) (tablename language : Option Str),
      q = [] ∨ safe_search_terms q = [] →
      search ctx q tablename language = Except.ok ctx ∧
      SearchQueryMixin_search ctx q tablename language = Except.ok ctx := by
  intro ctx q tn lang h
  have ht : safe_search_terms q = [] := by
    rcases h with h | h
    · subst h
      rfl
    · exact h
  exact ⟨search_empty_terms ctx q tn lang ht,
    mixin_search_empty_terms ctx q tn lang ht⟩

/-- Witness for C3 at an all-reserved input and a concrete query context. -/
theorem C3_empty_input_identity_witness :
    search ⟨[], [], none⟩ "@#| !".data none none = Except.ok ⟨[], [], none⟩ ∧
    SearchQueryMixin_search ⟨[], [], none⟩ "@#| !".data none none
      = Except.ok ⟨[], [], none⟩ :=
  C3_empty_input_identity ⟨[], [], none⟩ "@#| !".data none none (Or.inr (by decide))

/-- C4: on a raw query with a non-empty term set, `search` attaches the
predicate built by `search_filter` and binds the parameter `term` to the
sanitized tokens joined with " & "; for "hello world" the joined value is
exactly "hello:* & world:*". -/
theorem C4_nonempty_attaches_and_binds :
    (∀ (ctx : Query) (q : Str) (tablename language : Option Str) (f : Str),
        safe_search_terms q ≠ [] →
        SearchQueryMixin_search_filter ctx q tablename language = Except.ok f →
        search ctx q tablename language
          = Except.ok ((ctx.filter f).params_bind "term".data
              (" & ".data.intercalate (safe_search_terms q)))) ∧
    " & ".data.intercalate (safe_search_terms "hello world".data)
      = "hello:* & world:*".data := by
  constructor
  · intro ctx q tn lang f hterms hsf
    have hq : q ≠ [] := fun he => hterms (he ▸ safe_search_terms_nil)
    rw [search_eq, if_neg hq, if_neg hterms, hsf]
  · decide

/-- Witness for C4 at the input "hello world" against the "users" table. -/
theorem C4_nonempty_attaches_and_binds_witness :
    search ⟨[], [], none⟩ "hello world".data (some "users".data) none
      = Except.ok ((Query.filter ⟨[], [], none⟩
          "\"users\".search_vector @@ to_tsquery(:term)".data).params_bind
          "term".data
          (" & ".data.intercalate (safe_search_terms "hello world".data))) :=
  C4_nonempty_attaches_and_binds.1 ⟨[], [], none⟩ "hello world".data
    (some "users".data) none "\"users\".search_vector @@ to_tsquery(:term)".data
    (by decide) (by decide)

/-- C5 counterexample: for the empty input the claim fails.  The sanitizer
returns the empty sequence, whose " & "-join is the empty string, and
re-splitting the empty string yields one empty piece rather than the
original empty tokenization. -/
theorem C5_roundtrip_counterexample :
    ¬((split_on_amp (" & ".data.intercalate (safe_search_terms "".data))).map
        strip_colon_star
      = sanitize_tokens "".data) := by decide

/-- C5 amended: for every input string with a non-empty sanitized term
sequence, joining the terms with " & ", re-splitting on " & " and stripping
the suffix marker from each piece reproduces the original tokenization. -/
theorem C5_roundtrip (q : Str) (h : safe_search_terms q ≠ []) :
    split_on_amp (" & ".data.intercalate (safe_search_terms q))
      = safe_search_terms q ∧
    (split_on_amp (" & ".data.intercalate (safe_search_terms q))).map
        strip_colon_star
      = sanitize_tokens q := by
  have hsplit := split_amp_intercalate (safe_search_terms q) h (terms_no_space q)
  refine ⟨hsplit, ?_⟩
  rw [hsplit, safe_search_terms_eq_map, List.map_map]
  refine (List.map_congr_left ?_).trans (List.map_id _)
  intro w _
  show strip_colon_star (w ++ wildcard) = w
  exact strip_colon_star_append w

/-- Witness for C5 at the input "hello world". -/
theorem C5_roundtrip_witness :
    split_on_amp (" & ".data.intercalate (safe_search_terms "hello world".data))
      = safe_search_terms "hello world".data ∧
    (split_on_amp
        (" & ".data.intercalate (safe_search_terms "hello world".data))).map
        strip_colon_star
      = sanitize_tokens "hello world".data :=
  C5_roundtrip "hello world".data (by decide)

/-- C6: every token produced by the sanitizer is a non-empty word fragment
free of reserved characters and whitespace, annotated with the trailing
prefix-match marker ":*". -/
theorem C6_token_invariant (q : Str) :
    ∀ t ∈ safe_search_terms q,
      ∃ w, t = w ++ wildcard ∧ w ≠ [] ∧ ∀ c ∈ w, is_illegal c = false := by
  intro t ht
  rw [safe_search_terms_eq_map] at ht
  obtain ⟨w, hw, hmap⟩ := List.mem_map.mp ht
  obtain ⟨h1, h2⟩ := sanitize_tokens_spec q w hw
  exact ⟨w, hmap.symm, h1, h2⟩

/-- Witness for C6 at the token "hello:*" of the input "hello world". -/
theorem C6_token_invariant_witness :
    ∃ w, "hello:*".data = w ++ wildcard ∧ w ≠ []
      ∧ ∀ c ∈ w, is_illegal c = false :=
  C6_token_invariant "hello world".data "hello:*".data (by decide)

/-- C7: the predicate string never depends on the raw search input.  First,
`search_filter` returns the same result for any two raw terms (only the
caller-trusted tablename and language shape the SQL text).  Second, two
successful `search` calls on the same context with different raw inputs
attach identical filter strings: user input reaches the query only through
the bound parameter. -/
theorem C7_no_raw_input_in_predicate :
    (∀ (q : Query) (tablename language : Option Str) (t₁ t₂ : Str),
        search_filter q t₁ tablename language
          = search_filter q t₂ tablename language) ∧
    (∀ (ctx : Query) (s₁ s₂ : Str) (tablename language : Option Str)
        (r₁ r₂ : Query),
        safe_search_terms s₁ ≠ [] → safe_search_terms s₂ ≠ [] →
        search ctx s₁ tablename language = Except.ok r₁ →
        search ctx s₂ tablename language = Except.ok r₂ →
        r₁.filters = r₂.filters) := by
  constructor
  · intro q tn lang t₁ t₂
    rfl
  · intro ctx s₁ s₂ tn lang r₁ r₂ h₁ h₂ hr₁ hr₂
    obtain ⟨f₁, hf₁, he₁⟩ := search_ok_shape ctx s₁ tn lang r₁ h₁ hr₁
    obtain ⟨f₂, hf₂, he₂⟩ := search_ok_shape ctx s₂ tn lang r₂ h₂ hr₂
    have hsame : SearchQueryMixin_search_filter ctx s₁ tn lang
        = SearchQueryMixin_search_filter ctx s₂ tn lang := rfl
    rw [hf₁, hf₂] at hsame
    have hf : f₁ = f₂ := by injection hsame
    subst hf
    rw [he₁, he₂]
    rfl

/-- Witness for C7: equal predicates for the raw inputs "aaa" and "bbb",
and equal attached filters for the searches "cat" and "dog elephant". -/
theorem C7_no_raw_input_in_predicate_witness :
    search_filter ⟨[], [], none⟩ "aaa".data (some "users".data) none
      = search_filter ⟨[], [], none⟩ "bbb".data (some "users".data) none ∧
    Query.filters ⟨["\"users\".search_vector @@ to_tsquery(:term)".data],
        [("term".data, "cat:*".data)], none⟩
      = Query.filters ⟨["\"users\".search_vector @@ to_tsquery(:term)".data],
        [("term".data, "dog:* & elephant:*".data)], none⟩ :=
  ⟨C7_no_raw_input_in_predicate.1 ⟨[], [], none⟩ (some "users".data) none
      "aaa".data "bbb".data,
   C7_no_raw_input_in_predicate.2 ⟨[], [], none⟩ "cat".data
      "dog elephant".data (some "users".data) none
      ⟨["\"users\".search_vector @@ to_tsquery(:term)".data],
        [("term".data, "cat:*".data)], none⟩
      ⟨["\"users\".search_vector @@ to_tsquery(:term)".data],
        [("term".data, "dog:* & elephant:*".data)], none⟩
      (by decide) (by decide) (by decide) (by decide)⟩

/-- C8: a data model that directly inherits `Searchable` but declares no
searchable columns makes `define_search_vector` raise at schema-definition
time, with no recovery path other than the propagated exception. -/
theorem C8_missing_columns_fatal :
    ∀ cls : SearchableModel,
      cls.directly_inherits_searchable = true →
      cls.searchable_columns = [] →
      define_search_vector cls
        = Except.error ("No searchable columns defined for model ".data
            ++ cls.name) := by
  intro cls h1 h2
  simp [define_search_vector, h1, h2]

/-- Witness for C8 at a concrete searchable class with no columns. -/
theorem C8_missing_columns_fatal_witness :
    define_search_vector
      ⟨"User".data, "user".data, [], "search_vector".data,
        "pg_catalog.english".data, "user_search_index".data,
        "user_search_update".data, true⟩
      = Except.error ("No searchable columns defined for model ".data
          ++ "User".data) :=
  C8_missing_columns_fatal _ rfl rfl

/-- C9: a failed tablename inference is signalled as a propagated exception
(`Except.error`), never as the silent-no-op `Except.ok ctx` used for the
empty term set, so the two outcomes stay distinguishable. -/
theorem C9_inference_failure_not_silent :
    ∀ (ctx : Query) (q : Str) (tablename language : Option Str),
      opt_falsy tablename = true →
      infer_tablename ctx = none →
      safe_search_terms q ≠ [] →
      search ctx q tablename language = Except.error () ∧
      (∀ r : Query, search ctx q tablename language ≠ Except.ok r) ∧
      (∀ q' : Str, safe_search_terms q' = [] →
        search ctx q' tablename language = Except.ok ctx) := by
  intro ctx q tn lang hfalsy hinfer hterms
  have hq : q ≠ [] := fun he => hterms (he ▸ safe_search_terms_nil)
  have hsf : SearchQueryMixin_search_filter ctx q tn lang = Except.error () := by
    simp [SearchQueryMixin_search_filter, search_filter, hfalsy, hinfer]
  refine ⟨?_, ?_, ?_⟩
  · rw [search_eq, if_neg hq, if_neg hterms, hsf]
  · intro r hr
    rw [search_eq, if_neg hq, if_neg hterms, hsf] at hr
    exact absurd hr (by simp)
  · intro q' h'
    exact search_empty_terms ctx q' tn lang h'

/-- Witness for C9 on a query with no entities and the raw input "abc". -/
theorem C9_inference_failure_not_silent_witness :
    search ⟨[], [], none⟩ "abc".data none none = Except.error () ∧
    (∀ r : Query, search ⟨[], [], none⟩ "abc".data none none ≠ Except.ok r) ∧
    (∀ q' : Str, safe_search_terms q' = [] →
      search ⟨[], [], none⟩ q' none none = Except.ok ⟨[], [], none⟩) :=
  C9_inference_failure_not_silent ⟨[], [], none⟩ "abc".data none none
    rfl rfl (by decide)

/-- C10: for queries carrying the mixin interface, the module-level `search`
and the mixin method agree on every input, including the early returns on
empty input. -/
theorem C10_module_equals_mixin :
    ∀ (q : Query) (sq : Str) (tablename language : Option Str),
      search q sq tablename language
        = SearchQueryMixin_search q sq tablename language := by
  intro q sq tn lang
  rfl
